import Mathlib

/-!
# BitChart core — shallow embedding and verification

This file embeds the core algorithms of the BitChart OHLCV charting engine
(shared ring-buffer data store, compute-worker indicator math and M4
decimation, time-scale zoom/clamp, nice-step grid computation, frustum
culling, and realtime tick→candle aggregation) as executable Lean
definitions, and proves — or refutes on concrete inputs — the behavioural
properties stated in the project's specification.

Modelling conventions:
* JavaScript numbers are modelled as exact rationals (`ℚ`); floating-point
  rounding is idealised away.  `NaN` cells of indicator outputs are
  modelled as `none : Option ℚ`, ordinary values as `some`.
* `Float32Array` payloads of OHLCV records are modelled as `ℕ → Bar`
  (the physical array) or `List Bar`; out-of-range typed-array writes are
  ignored, matching JavaScript semantics.
* A TypeScript function typed `void` returns `undefined`; its result is
  modelled as `Option Bool` with value `none` (it never returns a
  boolean).
* `Atomics.load/store` of the header fields are plain reads/writes here:
  all claims treated in this file are single-threaded.
-/

namespace BitChart

/-- One OHLCV record (`time, open, high, low, close, volume`), the six
scalars of the shared-buffer layout.  The `open` field is called `open_`
because `open` is a Lean keyword. -/
structure Bar where
  time : ℚ
  open_ : ℚ
  high : ℚ
  low : ℚ
  close : ℚ
  volume : ℚ
deriving DecidableEq, Repr

/-- The all-zero bar: the content of freshly allocated (zero-initialised)
`Float32Array` slots. -/
def Bar.zero : Bar := ⟨0, 0, 0, 0, 0, 0⟩

instance : Inhabited Bar := ⟨Bar.zero⟩

namespace SharedDataManager

/-- State of `SharedDataManager` (SharedArrayBuffer supported): the
header fields `count` and `head`, the mode flags, and the payload as a
physical array of bars.  `payload j` is the bar stored at physical slot
`j`; slots `j ≥ capacity` are unreachable by writes. -/
structure Store where
  capacity : ℕ
  maxCapacity : ℕ
  ringBufferMode : Bool
  count : ℕ
  head : ℕ
  payload : ℕ → Bar

/-- A single bar store `dataView[6*i .. 6*i+5] = candle`; writes beyond the
typed array's end (`i ≥ capacity`) are silently ignored, as in
JavaScript. -/
def writeAt (cap : ℕ) (p : ℕ → Bar) (i : ℕ) (b : Bar) : ℕ → Bar :=
  fun j => if i < cap ∧ j = i then b else p j

/-- The write loop `for i: dataView[f i] := candles[i]` of the data
manager, with `f` the physical index of logical write position `i`. -/
def writeMany (cap : ℕ) (f : ℕ → ℕ) (candles : List Bar) (p : ℕ → Bar) : ℕ → Bar :=
  candles.enum.foldl (fun q ib => writeAt cap q (f ib.1) ib.2) p

/-- `allocateBuffer`: a fresh zeroed buffer of the given capacity with
`count = 0`, `head = 0`. -/
def allocateBuffer (s : Store) (newCapacity : ℕ) : Store :=
  { s with capacity := newCapacity, count := 0, head := 0, payload := fun _ => Bar.zero }

/-- `expandBuffer`: allocate a new buffer, copy
`min (oldCount·6, newLength)` floats — i.e. `min oldCount newCapacity`
bars — from the old payload, and restore `count = oldCount`. -/
def expandBuffer (s : Store) (newCapacity : ℕ) : Store :=
  let oldCount := s.count
  let oldPayload := s.payload
  let s1 := allocateBuffer s newCapacity
  { s1 with
    payload := fun j => if j < min oldCount newCapacity then oldPayload j else s1.payload j,
    count := oldCount }

/-- `setData` (the spec's `setAll`): grow by
`min (max count (capacity·2)) maxCapacity` when `count > capacity`, then
write the bars densely from slot 0 and store `count = data.length`,
`head = 0`. -/
def setData (s : Store) (data : List Bar) : Store :=
  let count := data.length
  let s1 := if s.capacity < count then
      expandBuffer s (min (max count (s.capacity * 2)) s.maxCapacity)
    else s
  { s1 with
    payload := writeMany s1.capacity (fun i => i) data s1.payload,
    count := count,
    head := 0 }

/-- `appendDataRingBuffer`: write each candle at
`(head + i) % capacity`, advance
`head := (head + length) % capacity`, and store
`count := min (count + length) capacity`. -/
def appendDataRingBuffer (s : Store) (candles : List Bar) : Store :=
  let headIndex := s.head
  { s with
    payload := writeMany s.capacity (fun i => (headIndex + i) % s.capacity) candles s.payload,
    head := (headIndex + candles.length) % s.capacity,
    count := min (s.count + candles.length) s.capacity }

/-- The shared tail of `appendData`: write the candles after the current
`count` bars and store `count := currentCount + length`. -/
def appendWrite (s : Store) (currentCount : ℕ) (candles : List Bar) : Store :=
  { s with
    payload := writeMany s.capacity (fun i => currentCount + i) candles s.payload,
    count := currentCount + candles.length }

/-- `appendData`.  The TypeScript function is typed `void`: every path
returns `undefined`, modelled as `none : Option Bool`.  On overflow in
ring mode it delegates to the ring writer; in growable mode it expands
the buffer, or — when the expanded capacity would not exceed the current
one (absolute cap reached) — warns and returns with no mutation. -/
def appendData (s : Store) (candles : List Bar) : Store × Option Bool :=
  if candles.length = 0 then (s, none)
  else
    let currentCount := s.count
    let newCount := currentCount + candles.length
    if s.capacity < newCount then
      if s.ringBufferMode then (appendDataRingBuffer s candles, none)
      else
        let newCapacity := min (max newCount (s.capacity * 2)) s.maxCapacity
        if newCapacity ≤ s.capacity then (s, none)
        else (appendWrite (expandBuffer s newCapacity) currentCount candles, none)
    else (appendWrite s currentCount candles, none)

/-- `getData` (the spec's `snapshot`): copies the bars at physical slots
`0 .. count-1`, in physical order — the `head` index is not consulted. -/
def getData (s : Store) : List Bar :=
  (List.range s.count).map s.payload

/-- The constructor: initial capacity, absolute cap, ring-mode flag; the
buffer is allocated zeroed with `count = head = 0`. -/
def mkStore (initialCapacity maxCapacity : ℕ) (ringBufferMode : Bool) : Store :=
  { capacity := initialCapacity, maxCapacity := maxCapacity,
    ringBufferMode := ringBufferMode,
    count := 0, head := 0, payload := fun _ => Bar.zero }

end SharedDataManager

/-! ## Compute worker — indicator math and M4 decimation -/

/-- The body of `calculateSMA`'s loop.  The first argument of the match is
the not-yet-processed suffix `data.drop i` (the JavaScript loop condition
`i < data.length`); `sum` is the running window sum.  At index `i` the
source does `sum += data[i]`, then if `i ≥ period` additionally
`sum -= data[i - period]` and emits `sum / period`; at `i = period - 1`
it emits `sum / period`; earlier entries are `NaN` (`none`). -/
def smaLoop (data : List ℚ) (period : ℕ) : List ℚ → ℕ → ℚ → List (Option ℚ)
  | [], _, _ => []
  | _ :: rem, i, sum =>
    let sum1 := sum + data.getD i 0
    if period ≤ i then
      let sum2 := sum1 - data.getD (i - period) 0
      some (sum2 / period) :: smaLoop data period rem (i + 1) sum2
    else if i = period - 1 then
      some (sum1 / period) :: smaLoop data period rem (i + 1) sum1
    else
      none :: smaLoop data period rem (i + 1) sum1

/-- `calculateSMA` of the compute worker: simple moving average of the
input series with a sliding running sum. -/
def calculateSMA (data : List ℚ) (period : ℕ) : List (Option ℚ) :=
  smaLoop data period data 0 0

/-- `gains[i]` of `calculateRSI`: the positive part of
`data[i] - data[i-1]` for `1 ≤ i < data.length`, and `0` otherwise
(slot 0 of the zero-initialised array is never written). -/
def rsiGain (data : List ℚ) (i : ℕ) : ℚ :=
  if 1 ≤ i ∧ i < data.length then
    let change := data.getD i 0 - data.getD (i - 1) 0
    if 0 < change then change else 0
  else 0

/-- `losses[i]` of `calculateRSI`: the negative part of
`data[i] - data[i-1]`, as a non-negative number. -/
def rsiLoss (data : List ℚ) (i : ℕ) : ℚ :=
  if 1 ≤ i ∧ i < data.length then
    let change := data.getD i 0 - data.getD (i - 1) 0
    if change < 0 then -change else 0
  else 0

/-- The seed average of `calculateRSI`: the loop
`for (i = 1; i <= period && i < length)` sums
`gains[1 .. min period (length-1)]`, then divides by `period`. -/
def rsiInitAvgGain (data : List ℚ) (period : ℕ) : ℚ :=
  (∑ i ∈ Finset.Ico 1 (min (period + 1) data.length), rsiGain data i) / period

/-- The seed loss average of `calculateRSI`. -/
def rsiInitAvgLoss (data : List ℚ) (period : ℕ) : ℚ :=
  (∑ i ∈ Finset.Ico 1 (min (period + 1) data.length), rsiLoss data i) / period

/-- The mutable `avgGain` of `calculateRSI` as a function of the loop
index: it keeps its seed value up to `i = period` and is Wilder-smoothed
(`avg = (avg·(period-1) + gains[i]) / period`) for `i > period`. -/
def wilderAvgGain (data : List ℚ) (period : ℕ) : ℕ → ℚ
  | 0 => rsiInitAvgGain data period
  | i + 1 =>
    if i + 1 ≤ period then rsiInitAvgGain data period
    else (wilderAvgGain data period i * ((period : ℚ) - 1) + rsiGain data (i + 1)) / period

/-- The mutable `avgLoss` of `calculateRSI`, Wilder-smoothed like
`wilderAvgGain`. -/
def wilderAvgLoss (data : List ℚ) (period : ℕ) : ℕ → ℚ
  | 0 => rsiInitAvgLoss data period
  | i + 1 =>
    if i + 1 ≤ period then rsiInitAvgLoss data period
    else (wilderAvgLoss data period i * ((period : ℚ) - 1) + rsiLoss data (i + 1)) / period

/-- The RSI value written at index `i ≥ period`:
`100` when the smoothed loss is zero, else `100 - 100/(1 + gain/loss)`. -/
def rsiValue (data : List ℚ) (period i : ℕ) : ℚ :=
  let avgGain := wilderAvgGain data period i
  let avgLoss := wilderAvgLoss data period i
  if avgLoss = 0 then 100 else 100 - 100 / (1 + avgGain / avgLoss)

/-- `calculateRSI` of the compute worker, as the final state of its
result array.  `result = new Float32Array(length)` is zero-initialised
(`some 0`); the seed loop writes `NaN` (`none`) at indices
`1 .. min period (length-1)`; the main loop overwrites indices
`period ≤ i < length` with the Wilder-smoothed RSI value.  Index 0 is
never written and keeps its initial `0`. -/
def calculateRSI (data : List ℚ) (period : ℕ) : List (Option ℚ) :=
  (List.range data.length).map fun i =>
    if period ≤ i then some (rsiValue data period i)
    else if 1 ≤ i then none
    else some 0

/-- One step of the M4 bucket scan: keep the running max `high` and min
`low`, take the newest `close`, and accumulate `volume`. -/
def m4step (agg candle : Bar) : Bar :=
  { agg with
    high := if agg.high < candle.high then candle.high else agg.high,
    low := if candle.low < agg.low then candle.low else agg.low,
    close := candle.close,
    volume := agg.volume + candle.volume }

/-- The aggregate bar of an M4 bucket: initialised from the bucket's
first candle (all six fields), then scanned with `m4step` over the rest.
The empty case is unreachable for non-degenerate buckets and yields the
zero bar (the untouched zero-initialised result slot). -/
def m4Aggregate : List Bar → Bar
  | [] => Bar.zero
  | first :: rest => rest.foldl m4step first

/-- `decimateM4` of the compute worker.  If the source already has at
most `targetCount` bars it is returned as a copy; otherwise the source
index range is divided into `targetCount` buckets
`[⌊b·size⌋, min ⌊(b+1)·size⌋ n)` of rational width
`size = n / targetCount`, and each bucket is M4-aggregated.  A bucket
with an empty index range leaves its zero-initialised slot (`continue`
in the source). -/
def decimateM4 (data : List Bar) (targetCount : ℕ) : List Bar :=
  let sourceCount := data.length
  if sourceCount ≤ targetCount then data
  else
    let bucketSize : ℚ := (sourceCount : ℚ) / (targetCount : ℚ)
    (List.range targetCount).map fun (bucket : ℕ) =>
      let startIdx := ⌊(bucket : ℚ) * bucketSize⌋₊
      let endIdx := min ⌊((bucket : ℚ) + 1) * bucketSize⌋₊ sourceCount
      if endIdx ≤ startIdx then Bar.zero
      else m4Aggregate ((data.drop startIdx).take (endIdx - startIdx))

/-- The sum of the `volume` fields of a list of bars. -/
def volumeSum (bars : List Bar) : ℚ :=
  (bars.map Bar.volume).sum

/-- Bucket `b` of `decimateM4` as a sublist: the source bars at indices
`[⌊b·size⌋, min ⌊(b+1)·size⌋ n)`, the exact range the source's inner
loop scans. -/
def bucketSlice (data : List Bar) (targetCount b : ℕ) : List Bar :=
  let sourceCount := data.length
  let bucketSize : ℚ := (sourceCount : ℚ) / (targetCount : ℚ)
  let startIdx := ⌊(b : ℚ) * bucketSize⌋₊
  let endIdx := min ⌊((b : ℚ) + 1) * bucketSize⌋₊ sourceCount
  (data.drop startIdx).take (endIdx - startIdx)

/-! ## Time scale -/

/-- The fields of `TimeScale` relevant to zooming: the data range
`[minTime, maxTime]`, the visible range, and the right-padding ratio. -/
structure TimeScaleState where
  minTime : ℚ
  maxTime : ℚ
  visibleMinTime : ℚ
  visibleMaxTime : ℚ
  rightPadding : ℚ
deriving DecidableEq, Repr

namespace TimeScale

/-- `clampVisibleRange`: enforce the minimum visible duration
(`min (dataDuration·0.01) 60000`, recentred), then absorb the left edge
at `minTime`, then absorb the right edge at
`maxTime + dataDuration·rightPadding`. -/
def clampVisibleRange (s : TimeScaleState) : TimeScaleState :=
  let dataDuration := s.maxTime - s.minTime
  let duration := s.visibleMaxTime - s.visibleMinTime
  let minDuration := min (dataDuration * (1 / 100)) 60000
  let s1 :=
    if duration < minDuration then
      let center := (s.visibleMinTime + s.visibleMaxTime) / 2
      { s with visibleMinTime := center - minDuration / 2,
               visibleMaxTime := center + minDuration / 2 }
    else s
  let s2 :=
    if s1.visibleMinTime < s1.minTime then
      { s1 with visibleMaxTime := s1.visibleMaxTime + (s1.minTime - s1.visibleMinTime),
                visibleMinTime := s1.minTime }
    else s1
  let paddedMaxTime := s2.maxTime + dataDuration * s2.rightPadding
  if paddedMaxTime < s2.visibleMaxTime then
    { s2 with visibleMinTime := s2.visibleMinTime - (s2.visibleMaxTime - paddedMaxTime),
              visibleMaxTime := paddedMaxTime }
  else s2

/-- The unclamped part of `zoom`: scale the visible range about `center`
(defaulting to the midpoint) by `factor`. -/
def zoomRaw (s : TimeScaleState) (factor : ℚ) (centerTime : Option ℚ) : TimeScaleState :=
  let center := centerTime.getD ((s.visibleMinTime + s.visibleMaxTime) / 2)
  let leftDuration := center - s.visibleMinTime
  let rightDuration := s.visibleMaxTime - center
  { s with visibleMinTime := center - leftDuration * factor,
           visibleMaxTime := center + rightDuration * factor }

/-- `TimeScale.zoom`: rescale about the center, then clamp. -/
def zoom (s : TimeScaleState) (factor : ℚ) (centerTime : Option ℚ) : TimeScaleState :=
  clampVisibleRange (zoomRaw s factor centerTime)

/-- A state whose visible range triggers none of the three branches of
`clampVisibleRange`: its duration is at least the minimum duration, its
left edge is at or right of `minTime`, and its right edge is at or left
of the padded maximum. -/
def inBounds (s : TimeScaleState) : Prop :=
  min ((s.maxTime - s.minTime) * (1 / 100)) 60000 ≤ s.visibleMaxTime - s.visibleMinTime
  ∧ s.minTime ≤ s.visibleMinTime
  ∧ s.visibleMaxTime ≤ s.maxTime + (s.maxTime - s.minTime) * s.rightPadding

instance (s : TimeScaleState) : Decidable (inBounds s) := by
  unfold inBounds; infer_instance

end TimeScale

/-! ## Math utilities -/

/-- `calculateNiceStep` of the math utilities: with
`rough = range / targetSteps`, `magnitude = 10^⌊log10 rough⌋` and
`residual = rough / magnitude`, pick the multiplier 1, 2, 5 or 10 by the
thresholds 1.5, 3, 7 and return `multiplier · magnitude`. -/
def calculateNiceStep (range : ℚ) (targetSteps : ℚ) : ℚ :=
  let roughStep := range / targetSteps
  let magnitude : ℚ := 10 ^ (Int.log 10 roughStep)
  let residual := roughStep / magnitude
  let niceStep : ℚ :=
    if residual ≤ 3 / 2 then 1
    else if residual ≤ 3 then 2
    else if residual ≤ 7 then 5
    else 10
  niceStep * magnitude

/-! ## Frustum culler -/

/-- The `lowerBound` binary-search loop.  The `while (left < right)` loop
shrinks `right - left` by at least one per iteration, so running it with
`fuel ≥ right - left` steps reproduces the loop exactly; when the fuel
runs out, `left = right` and the loop would have exited anyway. -/
def lbGo (arr : List ℚ) (value : ℚ) : ℕ → ℕ → ℕ → ℕ
  | 0, left, _ => left
  | fuel + 1, left, right =>
    if left < right then
      let mid := (left + right) / 2
      if arr.getD mid 0 < value then lbGo arr value fuel (mid + 1) right
      else lbGo arr value fuel left mid
    else left

/-- `lowerBound`: the first index whose element is `≥ value` (for a
sorted array), by binary search over `[0, arr.length)`. -/
def lowerBound (arr : List ℚ) (value : ℚ) : ℕ :=
  lbGo arr value arr.length 0 arr.length

/-- The `upperBound` binary-search loop (strict comparison flipped). -/
def ubGo (arr : List ℚ) (value : ℚ) : ℕ → ℕ → ℕ → ℕ
  | 0, left, _ => left
  | fuel + 1, left, right =>
    if left < right then
      let mid := (left + right) / 2
      if arr.getD mid 0 ≤ value then ubGo arr value fuel (mid + 1) right
      else ubGo arr value fuel left mid
    else left

/-- `upperBound`: the first index whose element is `> value` (for a
sorted array). -/
def upperBound (arr : List ℚ) (value : ℚ) : ℕ :=
  ubGo arr value arr.length 0 arr.length

/-- A visible time range `[from, to]`; `from` and `to` are Lean
keywords, hence the underscores. -/
structure TimeRange where
  from_ : ℚ
  to_ : ℚ
deriving DecidableEq, Repr

/-- The `FrustumCuller` options: `padding` (extra bars each side),
`minCount` and `maxCount` (bounds on the result size). -/
structure CullingOptions where
  padding : ℕ
  minCount : ℕ
  maxCount : ℕ
deriving DecidableEq, Repr

/-- The constructor defaults of `FrustumCuller`. -/
def defaultCullingOptions : CullingOptions :=
  { padding := 5, minCount := 10, maxCount := 100000 }

namespace FrustumCuller

/-- `FrustumCuller.cull`, returning the half-open index range
`[startIndex, endIndex)`.  Binary search over the bar times gives the
raw window; `padding` (an index count) widens it on both sides.  Where
the source clamps explicitly — `Math.max(0, ·)` on start indices,
`Math.min(totalCount, ·)` on end indices — the model uses natural
subtraction / `Int.toNat` / `min`; but `visibleCount = endIndex -
startIndex` carries no such clamp and is a **signed** JavaScript
number, so it is modelled in `ℤ` (for a reversed time range it goes
negative and the `minCount` top-up engages).  Inside the top-up branch
`diff = minCount - visibleCount` is positive, so `Math.floor(diff / 2)`
coincides with integer division, and `endIndex + (diff - halfDiff)`
is non-negative.  Fewer than `minCount` bars are topped up half on each
side; more than `maxCount` bars are centre-trimmed. -/
def cull (opts : CullingOptions) (data : List Bar) (range : TimeRange) : ℕ × ℕ :=
  let totalCount := data.length
  if totalCount = 0 then (0, 0)
  else
    let times := data.map Bar.time
    let s0 := lowerBound times range.from_
    let e0 := upperBound times range.to_
    let s1 := s0 - opts.padding
    let e1 := min totalCount (e0 + opts.padding)
    let vc : ℤ := (e1 : ℤ) - (s1 : ℤ)
    let se2 :=
      if vc < (opts.minCount : ℤ) then
        let diff : ℤ := (opts.minCount : ℤ) - vc
        let halfDiff : ℤ := diff / 2
        (((s1 : ℤ) - halfDiff).toNat,
         min totalCount (((e1 : ℤ) + (diff - halfDiff)).toNat))
      else (s1, e1)
    if (opts.maxCount : ℤ) < (se2.2 : ℤ) - (se2.1 : ℤ) then
      let center := (se2.1 + se2.2) / 2
      let halfMax := opts.maxCount / 2
      let s3 := center - halfMax
      (s3, min totalCount (s3 + opts.maxCount))
    else se2

end FrustumCuller

/-! ## Realtime ingest — tick → candle aggregation -/

/-- A trade tick; `volume` is optional (`tick.volume ?? 0` in the
aggregation).  The `side` field plays no role in aggregation and is
omitted. -/
structure Tick where
  time : ℚ
  price : ℚ
  volume : Option ℚ
deriving DecidableEq, Repr

/-- The aggregation state of `RealtimeDataHandler`: the current partial
candle (if any) and `candleStartTime` (initially 0). -/
structure HandlerState where
  currentCandle : Option Bar
  candleStartTime : ℚ
deriving DecidableEq, Repr

namespace RealtimeDataHandler

/-- `updateCandle`: bucket the tick time to
`⌊time / timeframe⌋ · timeframe`.  On a bucket change (or no current
candle) the previous candle is emitted (the `candle` event) and a new
one starts with all prices equal to the tick price; otherwise the
current candle's `high`/`low`/`close`/`volume` are updated in place.
Returns the new state and the emitted completed candle, if any. -/
def updateCandle (timeframe : ℚ) (st : HandlerState) (tick : Tick) :
    HandlerState × Option Bar :=
  let candleTime : ℚ := (⌊tick.time / timeframe⌋ : ℤ) * timeframe
  if st.currentCandle.isNone ∨ candleTime ≠ st.candleStartTime then
    let fresh : Bar :=
      { time := candleTime, open_ := tick.price, high := tick.price,
        low := tick.price, close := tick.price, volume := tick.volume.getD 0 }
    ({ currentCandle := some fresh, candleStartTime := candleTime },
     st.currentCandle)
  else
    match st.currentCandle with
    | some c =>
      let c' : Bar :=
        { c with high := max c.high tick.price, low := min c.low tick.price,
                 close := tick.price, volume := c.volume + tick.volume.getD 0 }
      ({ st with currentCandle := some c' }, none)
    | none => (st, none)

/-- Feed a list of ticks through `updateCandle`, collecting every candle
emitted along the way. -/
def processTicks (timeframe : ℚ) : HandlerState → List Tick → HandlerState × List Bar
  | st, [] => (st, [])
  | st, t :: rest =>
    let step := updateCandle timeframe st t
    let recur := processTicks timeframe step.1 rest
    (recur.1, step.2.toList ++ recur.2)

/-- The initial handler state: no current candle, `candleStartTime = 0`. -/
def initialState : HandlerState := ⟨none, 0⟩

end RealtimeDataHandler

/-- The per-bar well-formedness invariant of the spec:
`low ≤ min(open, close) ≤ max(open, close) ≤ high` and `volume ≥ 0`. -/
def barInvariant (b : Bar) : Prop :=
  b.low ≤ min b.open_ b.close ∧ max b.open_ b.close ≤ b.high ∧ 0 ≤ b.volume

instance (b : Bar) : Decidable (barInvariant b) := by
  unfold barInvariant; infer_instance

/-! ## Verification

Shared helper lemmas first, then one theorem per specification claim
(with its witness or counterexample where required). -/

/-- `2 ^ Nat.clog 2 n` is the least power of two that is `≥ n`: any
power of two `≥ n` dominates it.  Used to express the spec's "smallest
power of two ≥ `bars.length`". -/
theorem two_pow_clog_least {n e : ℕ} (h : n ≤ 2 ^ e) :
    2 ^ Nat.clog 2 n ≤ 2 ^ e :=
  Nat.pow_le_pow_right (by norm_num) ((Nat.le_pow_iff_clog_le (by norm_num)).1 h)

namespace SharedDataManager

/-- Claim C1 (corrected): in ring mode with capacity 3, after
`setAll([A,B,C])` then `append([D])` the header reads `count = 3` and
`head = 1`, but `snapshot()` copies the bars in **physical** slot order
`0 .. count-1` — the `head` index is ignored — so it returns
`[D, B, C]`, not the logical order `[B, C, D]`. -/
theorem ring_snapshot_physical_order (A B C D : Bar) :
    getData (appendData (setData (mkStore 3 1000000 true) [A, B, C]) [D]).1
        = [D, B, C] ∧
    (appendData (setData (mkStore 3 1000000 true) [A, B, C]) [D]).1.count = 3 ∧
    (appendData (setData (mkStore 3 1000000 true) [A, B, C]) [D]).1.head = 1 :=
  ⟨rfl, rfl, rfl⟩

/-- Claim C1, counterexample to the stated logical-order property: with
the concrete bars of spec scenario (a) plus a fourth bar `D`,
`snapshot()` after the ring overwrite is not `[B, C, D]` (it is
`[D, B, C]`). -/
theorem ring_snapshot_logical_order_cex :
    getData (appendData (setData (mkStore 3 1000000 true)
        [⟨1, 10, 12, 9, 11, 5⟩, ⟨2, 11, 14, 10, 13, 7⟩, ⟨3, 13, 15, 12, 14, 6⟩])
        [⟨4, 14, 16, 13, 15, 8⟩]).1
      ≠ [⟨2, 11, 14, 10, 13, 7⟩, ⟨3, 13, 15, 12, 14, 6⟩, ⟨4, 14, 16, 13, 15, 8⟩] := by
  decide

/-- Claim C4 (corrected): in growable (non-ring) mode, when the append
would overflow and the grown capacity `min (max newCount (2·cap)) maxCap`
does not exceed the current capacity (absolute cap reached), `appendData`
performs no mutation at all — the store, including `count`, `head` and
every payload slot, is returned unchanged — and, being a `void` function,
it returns `undefined` (`none`), not the boolean `false`. -/
theorem appendData_cap_refused_unchanged (s : Store) (candles : List Bar)
    (hring : s.ringBufferMode = false)
    (hover : s.capacity < s.count + candles.length)
    (hcap : min (max (s.count + candles.length) (s.capacity * 2)) s.maxCapacity ≤ s.capacity)
    (hne : candles.length ≠ 0) :
    appendData s candles = (s, none) := by
  unfold appendData
  rw [if_neg hne, if_pos hover, hring]
  simp only [Bool.false_eq_true, if_false, if_pos hcap]

/-- Witness for C4: a concrete full store at its absolute cap
(capacity = maxCapacity = 2, count = 2) refuses a one-bar append and is
returned unchanged. -/
theorem appendData_cap_refused_unchanged_witness :
    appendData (setData (mkStore 2 2 false) [Bar.zero, Bar.zero]) [⟨9, 9, 9, 9, 9, 9⟩]
      = (setData (mkStore 2 2 false) [Bar.zero, Bar.zero], none) :=
  appendData_cap_refused_unchanged
    (setData (mkStore 2 2 false) [Bar.zero, Bar.zero]) [⟨9, 9, 9, 9, 9, 9⟩]
    (by decide) (by decide) (by decide) (by decide)

/-- Claim C4, counterexample to the "returns false" part: on the same
refused append the function (typed `void` in the source) yields no
boolean — its result is `undefined` (`none`), not `false`. -/
theorem appendData_returns_false_cex :
    (appendData (setData (mkStore 2 2 false) [Bar.zero, Bar.zero])
        [⟨9, 9, 9, 9, 9, 9⟩]).2 ≠ some false := by
  decide

/-- Claim C7 (corrected): `setData` grows the capacity to
`min (max bars.length (2·capacity)) maxCapacity` when
`bars.length > capacity`, and leaves it unchanged otherwise.  This is
*not* the smallest power of two `≥ bars.length` (see the
counterexample). -/
theorem setData_capacity_growth (s : Store) (data : List Bar) :
    (setData s data).capacity =
      if s.capacity < data.length then
        min (max data.length (s.capacity * 2)) s.maxCapacity
      else s.capacity := by
  by_cases h : s.capacity < data.length <;>
    simp [setData, expandBuffer, allocateBuffer, h]

/-- Claim C7, counterexample: growing a store of capacity 4
(cap 1000000) with 9 bars yields capacity `min (max 9 8) 1000000 = 9`,
while the smallest power of two `≥ 9` is `2 ^ Nat.clog 2 9 = 16 ≠ 9`. -/
theorem setData_capacity_power_of_two_cex :
    (setData (mkStore 4 1000000 false) (List.replicate 9 Bar.zero)).capacity = 9 ∧
    2 ^ Nat.clog 2 9 = 16 ∧ (9 : ℕ) ≠ 16 := by
  refine ⟨by decide, ?_, by decide⟩
  have h1 : Nat.clog 2 9 ≤ 4 :=
    (Nat.le_pow_iff_clog_le (by norm_num)).1 (by norm_num)
  have h2 : ¬Nat.clog 2 9 ≤ 3 := by
    intro h
    have := (Nat.le_pow_iff_clog_le (b := 2) (x := 9) (by norm_num)).2 h
    norm_num at this
  have : Nat.clog 2 9 = 4 := by omega
  rw [this]
  norm_num

end SharedDataManager

namespace TimeScale

/-- On an in-bounds state, `clampVisibleRange` is the identity: none of
its three adjustment branches fires. -/
theorem clamp_id_of_inBounds (s : TimeScaleState) (h : inBounds s) :
    clampVisibleRange s = s := by
  obtain ⟨h1, h2, h3⟩ := h
  simp only [clampVisibleRange]
  rw [if_neg (not_lt.2 h1), if_neg (not_lt.2 h2), if_neg (not_lt.2 h3)]

/-- Claim C3 (corrected): `zoom(1/f, c) ∘ zoom(f, c)` restores the
original visible range exactly (in exact arithmetic) **provided no
clamping engages**, i.e. the original state and the freshly zoomed range
are both within bounds.  When a clamp branch does fire, the composite is
not the identity — see the counterexample. -/
theorem zoom_zoom_inverse (s : TimeScaleState) (f c : ℚ) (hf : 0 < f)
    (h0 : TimeScale.inBounds s) (h1 : TimeScale.inBounds (zoomRaw s f (some c))) :
    zoom (zoom s f (some c)) f⁻¹ (some c) = s := by
  have hf' : f ≠ 0 := ne_of_gt hf
  have e1 : zoom s f (some c) = zoomRaw s f (some c) := by
    unfold zoom; rw [clamp_id_of_inBounds _ h1]
  have e2 : zoomRaw (zoomRaw s f (some c)) f⁻¹ (some c) = s := by
    cases s
    simp only [zoomRaw, Option.getD_some]
    congr 1
    · field_simp
    · field_simp
  rw [e1]
  unfold zoom
  rw [e2, clamp_id_of_inBounds _ h0]

/-- Witness for C3: data range `[0, 100]`, visible `[20, 80]`, right
padding `1/20`; zooming out by `3/2` about `50` stays within bounds, and
zooming by `(3/2)⁻¹` about `50` restores the state exactly. -/
theorem zoom_zoom_inverse_witness :
    0 < (3 / 2 : ℚ) ∧
    TimeScale.inBounds ⟨0, 100, 20, 80, 1 / 20⟩ ∧
    TimeScale.inBounds (zoomRaw ⟨0, 100, 20, 80, 1 / 20⟩ (3 / 2) (some 50)) ∧
    zoom (zoom ⟨0, 100, 20, 80, 1 / 20⟩ (3 / 2) (some 50)) (3 / 2)⁻¹ (some 50)
      = (⟨0, 100, 20, 80, 1 / 20⟩ : TimeScaleState) :=
  ⟨by norm_num,
   by simp only [inBounds]; norm_num,
   by simp only [inBounds, zoomRaw, Option.getD_some]; norm_num,
   zoom_zoom_inverse ⟨0, 100, 20, 80, 1 / 20⟩ (3 / 2) 50 (by norm_num)
     (by simp only [inBounds]; norm_num)
     (by simp only [inBounds, zoomRaw, Option.getD_some]; norm_num)⟩

/-- Claim C3, counterexample to unconditional reversibility: with data
range `[0, 100]`, visible `[10, 90]` and right padding `1/20`,
`zoom(2, 50)` overshoots both clamp edges, and the subsequent
`zoom(1/2, 50)` lands on `[0, 80]`, not the original `[10, 90]`. -/
theorem zoom_reversible_cex :
    zoom (zoom ⟨0, 100, 10, 90, 1 / 20⟩ 2 (some 50)) (1 / 2) (some 50)
      ≠ (⟨0, 100, 10, 90, 1 / 20⟩ : TimeScaleState) := by
  simp only [zoom, zoomRaw, clampVisibleRange, Option.getD_some]
  norm_num

end TimeScale

/-- Claim C9 (corrected): for a positive span and a positive target
count, `calculateNiceStep` always returns a value of the form
`m · 10^e` with `m ∈ {1, 2, 5}`, and the returned step satisfies
`span / step ≤ 1.5 · targetCount`.  It is **not** always the smallest
such value with `span / step ≤ targetCount`: the residual thresholds
`1.5 / 3 / 7` round down (see the counterexample). -/
theorem calculateNiceStep_form_bound (range target : ℚ)
    (hr : 0 < range) (ht : 0 < target) :
    (∃ e : ℤ, calculateNiceStep range target = 1 * 10 ^ e ∨
              calculateNiceStep range target = 2 * 10 ^ e ∨
              calculateNiceStep range target = 5 * 10 ^ e) ∧
    range / calculateNiceStep range target ≤ 3 / 2 * target := by
  have hrough : 0 < range / target := div_pos hr ht
  set e : ℤ := Int.log 10 (range / target) with he
  have hmag : (0 : ℚ) < 10 ^ e := zpow_pos (by norm_num) e
  have hlow : (10 : ℚ) ^ e ≤ range / target := Int.zpow_log_le_self (by norm_num) hrough
  have hhigh : range / target < 10 ^ (e + 1) := Int.lt_zpow_succ_log_self (by norm_num) _
  have hhigh' : range / target < 10 ^ e * 10 := by
    rwa [zpow_add_one₀ (by norm_num : (10 : ℚ) ≠ 0)] at hhigh
  have hr1 : range ≤ range / target * target := by
    rw [div_mul_cancel₀ _ (ne_of_gt ht)]
  simp only [calculateNiceStep]
  rw [← he]
  split_ifs with hA hB hC
  · refine ⟨⟨e, Or.inl (by ring)⟩, ?_⟩
    rw [one_mul, div_le_iff₀ (by positivity)]
    have : range / target ≤ 3 / 2 * 10 ^ e := by
      rw [div_le_iff₀ hmag] at hA
      linarith
    calc range ≤ range / target * target := hr1
      _ ≤ 3 / 2 * 10 ^ e * target := by nlinarith
      _ = 3 / 2 * target * 10 ^ e := by ring
  · refine ⟨⟨e, Or.inr (Or.inl (by ring))⟩, ?_⟩
    rw [div_le_iff₀ (by positivity)]
    have : range / target ≤ 3 * 10 ^ e := by
      rw [div_le_iff₀ hmag] at hB
      linarith
    calc range ≤ range / target * target := hr1
      _ ≤ 3 * 10 ^ e * target := by nlinarith
      _ ≤ 3 / 2 * target * (2 * 10 ^ e) := by ring_nf; nlinarith
  · refine ⟨⟨e, Or.inr (Or.inr (by ring))⟩, ?_⟩
    rw [div_le_iff₀ (by positivity)]
    have : range / target ≤ 7 * 10 ^ e := by
      rw [div_le_iff₀ hmag] at hC
      linarith
    calc range ≤ range / target * target := hr1
      _ ≤ 7 * 10 ^ e * target := by nlinarith
      _ ≤ 3 / 2 * target * (5 * 10 ^ e) := by nlinarith
  · refine ⟨⟨e + 1, Or.inl ?_⟩, ?_⟩
    · rw [one_mul, zpow_add_one₀ (by norm_num : (10 : ℚ) ≠ 0)]
      ring
    · rw [div_le_iff₀ (by positivity)]
      have : range / target ≤ 10 * 10 ^ e := by linarith
      calc range ≤ range / target * target := hr1
        _ ≤ 10 * 10 ^ e * target := by nlinarith
        _ ≤ 3 / 2 * target * (10 * 10 ^ e) := by nlinarith

/-- Witness for C9: span 15, target 10 — the returned step 1 has the
form `1 · 10^0` and `15 / 1 ≤ 1.5 · 10`. -/
theorem calculateNiceStep_form_bound_witness :
    (0 : ℚ) < 15 ∧ (0 : ℚ) < 10 ∧
    ((∃ e : ℤ, calculateNiceStep 15 10 = 1 * 10 ^ e ∨
               calculateNiceStep 15 10 = 2 * 10 ^ e ∨
               calculateNiceStep 15 10 = 5 * 10 ^ e) ∧
     (15 : ℚ) / calculateNiceStep 15 10 ≤ 3 / 2 * 10) :=
  ⟨by norm_num, by norm_num, calculateNiceStep_form_bound 15 10 (by norm_num) (by norm_num)⟩

/-- Claim C9, counterexample to minimality: for span 15 and target
count 10, the rough step is `1.5`, the residual `1.5` falls in the first
threshold, and the returned step is `1` — but `15 / 1 = 15 > 10`, so the
returned step does not even satisfy `span / step ≤ targetCount`
(the smallest conforming nice value would be `2`). -/
theorem calculateNiceStep_smallest_cex :
    calculateNiceStep 15 10 = 1 ∧ ¬((15 : ℚ) / 1 ≤ 10) := by
  have hfl : ⌊(15 : ℚ) / 10⌋₊ = 1 := by
    rw [Nat.floor_eq_iff (by norm_num)]
    norm_num
  have hlog : Int.log 10 ((15 : ℚ) / 10) = 0 := by
    rw [Int.log_of_one_le_right 10 (r := (15 : ℚ) / 10) (by norm_num), hfl]
    exact_mod_cast Nat.log_eq_zero_iff.2 (Or.inl (by norm_num : (1 : ℕ) < 10))
  constructor
  · simp only [calculateNiceStep, hlog]
    norm_num
  · norm_num

/-- Window-sum step, warm-up phase (`i < period`): adding `data[i]`
extends the prefix sum. -/
lemma winSum_step_lt (data : List ℚ) (P i : ℕ) (hi : i < data.length) (hiP : i < P) :
    ((data.take (i + 1)).drop (i + 1 - P)).sum
      = ((data.take i).drop (i - P)).sum + data.getD i 0 := by
  have h1 : i + 1 - P = 0 := by omega
  have h2 : i - P = 0 := by omega
  rw [h1, h2]
  simp only [List.drop_zero]
  rw [List.take_succ]
  have : data[i]?.toList = [data.getD i 0] := by
    rw [List.getD_eq_getElem data 0 hi, List.getElem?_eq_getElem hi]
    rfl
  rw [this, List.sum_append]
  simp

/-- Window-sum step, sliding phase (`period ≤ i`): adding `data[i]` and
removing `data[i - period]` slides the window one step right. -/
lemma winSum_step_ge (data : List ℚ) (P i : ℕ) (hi : i < data.length) (hP : 1 ≤ P)
    (hiP : P ≤ i) :
    ((data.take (i + 1)).drop (i + 1 - P)).sum
      = ((data.take i).drop (i - P)).sum + data.getD i 0 - data.getD (i - P) 0 := by
  have hlen : (data.take i).length = i := List.length_take_of_le (le_of_lt hi)
  have hidx : i - P < (data.take i).length := by omega
  have hsucc : i - P + 1 = i + 1 - P := by omega
  have hdecomp : (data.take i).drop (i - P)
      = data.getD (i - P) 0 :: (data.take i).drop (i + 1 - P) := by
    rw [List.drop_eq_getElem_cons hidx, hsucc]
    congr 1
    rw [List.getElem_take]
    exact (List.getD_eq_getElem data 0 (by omega)).symm
  have htake : (data.take (i + 1)).drop (i + 1 - P)
      = (data.take i).drop (i + 1 - P) ++ [data.getD i 0] := by
    rw [List.take_succ]
    have : data[i]?.toList = [data.getD i 0] := by
      rw [List.getD_eq_getElem data 0 hi, List.getElem?_eq_getElem hi]
      rfl
    rw [this, List.drop_append_of_le_length (by omega)]
  rw [htake, List.sum_append, hdecomp]
  simp
  ring

/-- The running-sum loop of `calculateSMA` computes, at every index
`k ≥ period - 1`, the sum of the `period` closes ending at `k` divided
by `period`, and `none` (NaN) before that. -/
lemma smaLoop_eq (data : List ℚ) (P : ℕ) (hP : 1 ≤ P) :
    ∀ (i : ℕ), i ≤ data.length →
      smaLoop data P (data.drop i) i (((data.take i).drop (i - P)).sum)
        = (List.range (data.length - i)).map fun k =>
            if P - 1 ≤ i + k then
              some ((((data.take (i + k + 1)).drop (i + k + 1 - P)).sum) / P)
            else none := by
  intro i hi
  generalize hn : data.length - i = n
  induction n generalizing i with
  | zero =>
    have : data.drop i = [] := by
      rw [List.drop_eq_nil_iff]
      omega
    rw [this]
    simp [smaLoop]
  | succ n ih =>
    have hilen : i < data.length := by omega
    have hdrop : data.drop i = data[i] :: data.drop (i + 1) :=
      List.drop_eq_getElem_cons hilen
    rw [hdrop]
    rw [List.range_succ_eq_map]
    simp only [smaLoop, List.map_cons, List.map_map]
    have hrec : ∀ s : ℚ, s = ((data.take (i+1)).drop (i + 1 - P)).sum →
        smaLoop data P (data.drop (i+1)) (i+1) s
          = (List.range n).map fun k =>
              if P - 1 ≤ i + 1 + k then
                some ((((data.take (i + 1 + k + 1)).drop (i + 1 + k + 1 - P)).sum) / P)
              else none := by
      intro s hs
      rw [hs, ih (i+1) (by omega) (by omega)]
    by_cases hge : P ≤ i
    · rw [if_pos hge]
      have hsum2 : ((data.take i).drop (i - P)).sum + data.getD i 0 - data.getD (i - P) 0
          = ((data.take (i+1)).drop (i + 1 - P)).sum :=
        (winSum_step_ge data P i hilen hP hge).symm
      rw [hrec _ hsum2]
      congr 1
      · rw [if_pos (by omega)]
        simp only [Nat.add_zero]
        rw [← hsum2]
      · apply List.map_congr_left
        intro k _
        simp only [Function.comp, Nat.succ_eq_add_one]
        have e : i + (k + 1) = i + 1 + k := by omega
        rw [e]
    · rw [if_neg hge]
      have hsum1 : ((data.take i).drop (i - P)).sum + data.getD i 0
          = ((data.take (i+1)).drop (i + 1 - P)).sum :=
        (winSum_step_lt data P i hilen (by omega)).symm
      by_cases heq : i = P - 1
      · rw [if_pos heq]
        rw [hrec _ hsum1]
        congr 1
        · rw [if_pos (by omega)]
          simp only [Nat.add_zero]
          rw [← hsum1]
        · apply List.map_congr_left
          intro k _
          simp only [Function.comp, Nat.succ_eq_add_one]
          have e : i + (k + 1) = i + 1 + k := by omega
          rw [e]
      · rw [if_neg heq]
        rw [hrec _ hsum1]
        congr 1
        · rw [if_neg (by omega)]
        · apply List.map_congr_left
          intro k _
          simp only [Function.comp, Nat.succ_eq_add_one]
          have e : i + (k + 1) = i + 1 + k := by omega
          rw [e]

/-- Claim C5 (confirmed): for `1 ≤ P ≤ length`, `calculateSMA` returns
a sequence of the same length whose entries at indices `0 .. P-2` are
NaN (`none`) and whose entry at each `i ≥ P-1` is the arithmetic mean of
the `P` closes ending at `i`; in particular SMA(3) on `[1,2,3,4,5]` is
`[NaN, NaN, 2, 3, 4]`. -/
theorem calculateSMA_spec :
    (∀ (data : List ℚ) (P : ℕ), 1 ≤ P → P ≤ data.length →
      ((calculateSMA data P).length = data.length ∧
       (∀ i, i + 1 < P → (calculateSMA data P).getD i none = none) ∧
       (∀ i, P - 1 ≤ i → i < data.length →
         (calculateSMA data P).getD i none
           = some ((((data.take (i + 1)).drop (i + 1 - P)).sum) / P)))) ∧
    calculateSMA [1, 2, 3, 4, 5] 3 = [none, none, some 2, some 3, some 4] := by
  constructor
  · intro data P hP hPlen
    have hmain : calculateSMA data P
        = (List.range data.length).map fun k =>
            if P - 1 ≤ k then
              some ((((data.take (k + 1)).drop (k + 1 - P)).sum) / P)
            else none := by
      have := smaLoop_eq data P hP 0 (by omega)
      simpa [calculateSMA] using this
    rw [hmain]
    refine ⟨by simp, ?_, ?_⟩
    · intro i hiP
      have hilen : i < data.length := by omega
      rw [List.getD_eq_getElem _ _ (by simpa using hilen)]
      simp only [List.getElem_map, List.getElem_range]
      rw [if_neg (by omega)]
    · intro i hiP hilen
      rw [List.getD_eq_getElem _ _ (by simpa using hilen)]
      simp only [List.getElem_map, List.getElem_range]
      rw [if_pos hiP]
  · norm_num [calculateSMA, smaLoop]

/-- Witness for C5: the general statement applied to closes
`[1,2,3,4,5]` with period 3, read at index 4: the mean of the last three
closes. -/
theorem calculateSMA_spec_witness :
    1 ≤ 3 ∧ 3 ≤ ([(1 : ℚ), 2, 3, 4, 5] : List ℚ).length ∧
    (calculateSMA [1, 2, 3, 4, 5] 3).getD 4 none
      = some ((((([(1 : ℚ), 2, 3, 4, 5] : List ℚ).take 5).drop 2).sum) / 3) :=
  ⟨by norm_num, by norm_num,
   (calculateSMA_spec.1 [1, 2, 3, 4, 5] 3 (by norm_num) (by norm_num)).2.2 4
     (by norm_num) (by norm_num)⟩


/-- Claim C6 (corrected): for `1 ≤ P < length`, `calculateRSI` has the
length of its input; its entry 0 is `0` (the zero-initialised slot is
never written — **not** NaN as claimed); entries `1 .. P-1` are NaN
(`none`); and each entry `i ≥ P` is `100` when the Wilder-smoothed loss
is zero and `100 - 100/(1 + gain/loss)` otherwise, where the smoothed
averages seed at `i = P` with the plain average of the first `P`
gains/losses and obey `avg = (avg·(P-1) + x)/P` for `i > P`. -/
theorem calculateRSI_layout (data : List ℚ) (P : ℕ) (hP : 1 ≤ P) (hlen : P < data.length) :
    (calculateRSI data P).length = data.length ∧
    (calculateRSI data P).getD 0 none = some 0 ∧
    (∀ i, 1 ≤ i → i < P → (calculateRSI data P).getD i none = none) ∧
    (∀ i, P ≤ i → i < data.length →
      (calculateRSI data P).getD i none =
        some (if wilderAvgLoss data P i = 0 then 100
              else 100 - 100 / (1 + wilderAvgGain data P i / wilderAvgLoss data P i))) ∧
    wilderAvgGain data P P = (∑ j ∈ Finset.Icc 1 P, rsiGain data j) / P ∧
    wilderAvgLoss data P P = (∑ j ∈ Finset.Icc 1 P, rsiLoss data j) / P ∧
    (∀ i, P < i → wilderAvgGain data P i
        = (wilderAvgGain data P (i - 1) * ((P : ℚ) - 1) + rsiGain data i) / P) ∧
    (∀ i, P < i → wilderAvgLoss data P i
        = (wilderAvgLoss data P (i - 1) * ((P : ℚ) - 1) + rsiLoss data i) / P) := by
  have hmin : min (P + 1) data.length = P + 1 := by omega
  have hseedG : ∀ i, i ≤ P → wilderAvgGain data P i = rsiInitAvgGain data P := by
    intro i hi
    cases i with
    | zero => rfl
    | succ j => rw [wilderAvgGain, if_pos hi]
  have hseedL : ∀ i, i ≤ P → wilderAvgLoss data P i = rsiInitAvgLoss data P := by
    intro i hi
    cases i with
    | zero => rfl
    | succ j => rw [wilderAvgLoss, if_pos hi]
  refine ⟨by simp [calculateRSI], ?_, ?_, ?_, ?_, ?_, ?_, ?_⟩
  · have h0 : 0 < data.length := by omega
    rw [List.getD_eq_getElem _ _ (by simpa [calculateRSI] using h0)]
    simp only [calculateRSI, List.getElem_map, List.getElem_range]
    rw [if_neg (by omega), if_neg (by omega)]
  · intro i h1 h2
    have hilen : i < data.length := by omega
    rw [List.getD_eq_getElem _ _ (by simpa [calculateRSI] using hilen)]
    simp only [calculateRSI, List.getElem_map, List.getElem_range]
    rw [if_neg (by omega), if_pos h1]
  · intro i hPi hilen
    rw [List.getD_eq_getElem _ _ (by simpa [calculateRSI] using hilen)]
    simp only [calculateRSI, List.getElem_map, List.getElem_range]
    rw [if_pos hPi]
    rfl
  · rw [hseedG P le_rfl, rsiInitAvgGain, hmin, Nat.Ico_succ_right]
  · rw [hseedL P le_rfl, rsiInitAvgLoss, hmin, Nat.Ico_succ_right]
  · intro i hPi
    obtain ⟨j, rfl⟩ : ∃ j, i = j + 1 := ⟨i - 1, by omega⟩
    rw [wilderAvgGain, if_neg (by omega)]
    simp
  · intro i hPi
    obtain ⟨j, rfl⟩ : ∃ j, i = j + 1 := ⟨i - 1, by omega⟩
    rw [wilderAvgLoss, if_neg (by omega)]
    simp

/-- Witness for C6: the amended statement applied to closes `[1,2,3]`
with period 2, read at index 1 (NaN). -/
theorem calculateRSI_layout_witness :
    1 ≤ 2 ∧ 2 < ([(1 : ℚ), 2, 3] : List ℚ).length ∧
    (calculateRSI [(1 : ℚ), 2, 3] 2).getD 1 none = none :=
  ⟨by norm_num, by norm_num,
   (calculateRSI_layout [(1 : ℚ), 2, 3] 2 (by norm_num) (by norm_num)).2.2.1 1
     (by norm_num) (by norm_num)⟩

/-- Claim C6, counterexample to "the first P entries are NaN": with
period 2 on closes `[1,2,3]`, entry 0 is the array's zero initialisation
`0`, not NaN — the NaN-filling loop starts at index 1. -/
theorem calculateRSI_first_entry_cex :
    (calculateRSI [(1 : ℚ), 2, 3] 2).getD 0 none = some 0 ∧
    (some (0 : ℚ) ≠ (none : Option ℚ)) := by
  constructor
  · rfl
  · simp

/-- `⌊b · (n/t)⌋` in exact arithmetic is natural-number division `b·n/t`. -/
lemma floor_bucket (n t b : ℕ) :
    ⌊(b : ℚ) * ((n : ℚ) / (t : ℚ))⌋₊ = b * n / t := by
  rw [mul_div_assoc', ← Nat.cast_mul, Nat.floor_div_nat, Nat.floor_natCast]

/-- The same for the bucket's upper bound `⌊(b+1) · (n/t)⌋`. -/
lemma floor_bucket_succ (n t b : ℕ) :
    ⌊((b : ℚ) + 1) * ((n : ℚ) / (t : ℚ))⌋₊ = (b + 1) * n / t := by
  have : ((b : ℚ) + 1) = ((b + 1 : ℕ) : ℚ) := by push_cast; ring
  rw [this, floor_bucket]

/-- The bucket boundaries `b ↦ ⌊b·n/t⌋` are monotone. -/
lemma bucketBound_mono (n t : ℕ) : Monotone (fun b => b * n / t) := by
  intro a b hab
  exact Nat.div_le_div_right (Nat.mul_le_mul_right n hab)

/-- The last bucket boundary is exactly `n`. -/
lemma bucketBound_last (n t : ℕ) (ht : t ≠ 0) : t * n / t = n :=
  Nat.mul_div_cancel_left n (Nat.pos_of_ne_zero ht)

/-- Every bucket boundary is at most `n`. -/
lemma bucketBound_le (n t b : ℕ) (ht : t ≠ 0) (hb : b ≤ t) : b * n / t ≤ n := by
  calc b * n / t ≤ t * n / t := bucketBound_mono n t hb
    _ = n := bucketBound_last n t ht

/-- When there are more source bars than buckets, every bucket is
non-empty: consecutive boundaries are strictly increasing. -/
lemma bucketBound_strict (n t b : ℕ) (ht : t ≠ 0) (htn : t < n) :
    b * n / t < (b + 1) * n / t := by
  have h1 : b * n / t + 1 = (b * n + t) / t :=
    (Nat.add_div_right _ (Nat.pos_of_ne_zero ht)).symm
  have h2 : (b * n + t) / t ≤ (b * n + n) / t :=
    Nat.div_le_div_right (by omega)
  have h3 : (b + 1) * n = b * n + n := by ring
  rw [h3]
  omega

/-- The source's `if (h > high) high = h` is a `max`. -/
lemma m4step_high (agg c : Bar) : (m4step agg c).high = max agg.high c.high := by
  simp only [m4step]
  rcases lt_or_ge agg.high c.high with h | h
  · rw [if_pos h, max_eq_right (le_of_lt h)]
  · rw [if_neg (not_lt.2 h), max_eq_left h]

/-- The source's `if (l < low) low = l` is a `min`. -/
lemma m4step_low (agg c : Bar) : (m4step agg c).low = min agg.low c.low := by
  simp only [m4step]
  rcases lt_or_ge c.low agg.low with h | h
  · rw [if_pos h, min_eq_right (le_of_lt h)]
  · rw [if_neg (not_lt.2 h), min_eq_left h]

/-- The bucket scan never changes `time` (it stays the first bar's). -/
lemma m4fold_time : ∀ (rest : List Bar) (init : Bar),
    (rest.foldl m4step init).time = init.time := by
  intro rest
  induction rest with
  | nil => intro init; rfl
  | cons x xs ih => intro init; rw [List.foldl_cons, ih]; rfl

/-- The bucket scan never changes `open` (it stays the first bar's). -/
lemma m4fold_open : ∀ (rest : List Bar) (init : Bar),
    (rest.foldl m4step init).open_ = init.open_ := by
  intro rest
  induction rest with
  | nil => intro init; rfl
  | cons x xs ih => intro init; rw [List.foldl_cons, ih]; rfl

/-- The bucket scan's `close` is the last bar's close. -/
lemma m4fold_close : ∀ (rest : List Bar) (init : Bar),
    (rest.foldl m4step init).close = (rest.getLastD init).close := by
  intro rest
  induction rest with
  | nil => intro init; rfl
  | cons x xs ih =>
    intro init
    rw [List.foldl_cons, ih, List.getLastD_cons]
    cases xs with
    | nil => rfl
    | cons y ys =>
      rw [List.getLastD_eq_getLast?, List.getLastD_eq_getLast?]
      have hsome : (y :: ys).getLast?.isSome := by
        rw [List.getLast?_isSome]
        exact List.cons_ne_nil y ys
      obtain ⟨z, hz⟩ := Option.isSome_iff_exists.1 hsome
      rw [hz]
      rfl

/-- The bucket scan accumulates the volumes. -/
lemma m4fold_volume : ∀ (rest : List Bar) (init : Bar),
    (rest.foldl m4step init).volume = init.volume + (rest.map Bar.volume).sum := by
  intro rest
  induction rest with
  | nil => intro init; simp
  | cons x xs ih =>
    intro init
    rw [List.foldl_cons, ih]
    simp only [m4step, List.map_cons, List.sum_cons]
    ring

/-- The bucket scan folds `max` over the highs. -/
lemma m4fold_high : ∀ (rest : List Bar) (init : Bar),
    (rest.foldl m4step init).high = (rest.map Bar.high).foldl max init.high := by
  intro rest
  induction rest with
  | nil => intro init; rfl
  | cons x xs ih =>
    intro init
    rw [List.foldl_cons, ih, m4step_high, List.map_cons, List.foldl_cons]

/-- The bucket scan folds `min` over the lows. -/
lemma m4fold_low : ∀ (rest : List Bar) (init : Bar),
    (rest.foldl m4step init).low = (rest.map Bar.low).foldl min init.low := by
  intro rest
  induction rest with
  | nil => intro init; rfl
  | cons x xs ih =>
    intro init
    rw [List.foldl_cons, ih, m4step_low, List.map_cons, List.foldl_cons]

/-- A `max`-fold yields its seed or one of the list's elements. -/
lemma foldl_max_mem : ∀ (l : List ℚ) (a : ℚ), l.foldl max a = a ∨ l.foldl max a ∈ l := by
  intro l
  induction l with
  | nil => intro a; exact Or.inl rfl
  | cons x xs ih =>
    intro a
    rw [List.foldl_cons]
    rcases ih (max a x) with h | h
    · rcases le_total a x with hax | hax
      · rw [h, max_eq_right hax]; exact Or.inr (List.mem_cons_self x xs)
      · rw [h, max_eq_left hax]; exact Or.inl rfl
    · exact Or.inr (List.mem_cons_of_mem x h)

/-- A `max`-fold dominates its seed. -/
lemma le_foldl_max_self : ∀ (l : List ℚ) (a : ℚ), a ≤ l.foldl max a := by
  intro l
  induction l with
  | nil => intro a; exact le_rfl
  | cons x xs ih =>
    intro a
    rw [List.foldl_cons]
    exact le_trans (le_max_left a x) (ih (max a x))

/-- A `max`-fold dominates every element of the list. -/
lemma le_foldl_max_of_mem : ∀ (l : List ℚ) (a x : ℚ), x ∈ l → x ≤ l.foldl max a := by
  intro l
  induction l with
  | nil => intro a x hx; cases hx
  | cons y ys ih =>
    intro a x hx
    rw [List.foldl_cons]
    rcases List.mem_cons.1 hx with rfl | hx
    · exact le_trans (le_max_right a x) (le_foldl_max_self ys (max a x))
    · exact ih (max a y) x hx

/-- A `min`-fold yields its seed or one of the list's elements. -/
lemma foldl_min_mem : ∀ (l : List ℚ) (a : ℚ), l.foldl min a = a ∨ l.foldl min a ∈ l := by
  intro l
  induction l with
  | nil => intro a; exact Or.inl rfl
  | cons x xs ih =>
    intro a
    rw [List.foldl_cons]
    rcases ih (min a x) with h | h
    · rcases le_total a x with hax | hax
      · rw [h, min_eq_left hax]; exact Or.inl rfl
      · rw [h, min_eq_right hax]; exact Or.inr (List.mem_cons_self x xs)
    · exact Or.inr (List.mem_cons_of_mem x h)

/-- A `min`-fold is below its seed. -/
lemma foldl_min_le_self : ∀ (l : List ℚ) (a : ℚ), l.foldl min a ≤ a := by
  intro l
  induction l with
  | nil => intro a; exact le_rfl
  | cons x xs ih =>
    intro a
    rw [List.foldl_cons]
    exact le_trans (ih (min a x)) (min_le_left a x)

/-- A `min`-fold is below every element of the list. -/
lemma foldl_min_le_of_mem : ∀ (l : List ℚ) (a x : ℚ), x ∈ l → l.foldl min a ≤ x := by
  intro l
  induction l with
  | nil => intro a x hx; cases hx
  | cons y ys ih =>
    intro a x hx
    rw [List.foldl_cons]
    rcases List.mem_cons.1 hx with rfl | hx
    · exact le_trans (foldl_min_le_self ys (min a x)) (min_le_right a x)
    · exact ih (min a y) x hx

/-- Summing a per-bar quantity slice by slice over consecutive
boundaries `f 0 = 0 ≤ f 1 ≤ … ≤ f t = length` equals summing it over
the whole list. -/
lemma sum_slices (g : Bar → ℚ) (data : List Bar) (f : ℕ → ℕ) (t : ℕ)
    (hmono : Monotone f) (h0 : f 0 = 0) (hend : f t = data.length) :
    (∑ b ∈ Finset.range t, (((data.drop (f b)).take (f (b + 1) - f b)).map g).sum)
      = (data.map g).sum := by
  have key : ∀ k, k ≤ t →
      (∑ b ∈ Finset.Ico k t, (((data.drop (f b)).take (f (b + 1) - f b)).map g).sum)
        = ((data.drop (f k)).map g).sum := by
    intro k hk
    generalize hn : t - k = n
    induction n generalizing k with
    | zero =>
      have hkt : k = t := by omega
      subst hkt
      rw [Finset.Ico_self, Finset.sum_empty, hend]
      simp
    | succ n ih =>
      have hkt : k < t := by omega
      rw [Finset.sum_eq_sum_Ico_succ_bot hkt, ih (k + 1) (by omega) (by omega)]
      have hmk : f k ≤ f (k + 1) := hmono (by omega)
      have hsplit : data.drop (f k)
          = (data.drop (f k)).take (f (k + 1) - f k) ++ data.drop (f (k + 1)) := by
        conv_lhs => rw [← List.take_append_drop (f (k + 1) - f k) (data.drop (f k))]
        congr 1
        rw [List.drop_drop]
        congr 1
        omega
      conv_rhs => rw [hsplit]
      rw [List.map_append, List.sum_append]
  have := key 0 (by omega)
  rwa [h0, List.drop_zero, ← Finset.range_eq_Ico] at this

/-- A mapped sum over `List.range` as a `Finset.range` sum. -/
lemma list_map_range_sum (t : ℕ) (F : ℕ → ℚ) :
    ((List.range t).map F).sum = ∑ b ∈ Finset.range t, F b := by
  induction t with
  | zero => simp
  | succ n ih => rw [List.range_succ, List.map_append, List.sum_append,
      Finset.sum_range_succ, ih]; simp

/-- Claim C2 (confirmed): for every source payload and `targetCount ≥ 1`
the M4 output conserves total volume, and — in the decimating case
`targetCount < length` — has exactly `targetCount` bars, each bucket
non-empty, with `time`/`open` from the bucket's first source bar,
`close` from its last, `volume` the bucket sum, `high` the maximum high
of the bucket and `low` the minimum low. -/
theorem decimateM4_spec (data : List Bar) (t : ℕ) (ht : 1 ≤ t) :
    volumeSum (decimateM4 data t) = volumeSum data ∧
    (t < data.length →
      (decimateM4 data t).length = t ∧
      ∀ b, b < t →
        bucketSlice data t b ≠ [] ∧
        ((decimateM4 data t).getD b Bar.zero).time
            = ((bucketSlice data t b).getD 0 Bar.zero).time ∧
        ((decimateM4 data t).getD b Bar.zero).open_
            = ((bucketSlice data t b).getD 0 Bar.zero).open_ ∧
        ((decimateM4 data t).getD b Bar.zero).close
            = ((bucketSlice data t b).getLastD Bar.zero).close ∧
        ((decimateM4 data t).getD b Bar.zero).volume
            = ((bucketSlice data t b).map Bar.volume).sum ∧
        ((decimateM4 data t).getD b Bar.zero).high ∈ (bucketSlice data t b).map Bar.high ∧
        (∀ x ∈ (bucketSlice data t b).map Bar.high,
          x ≤ ((decimateM4 data t).getD b Bar.zero).high) ∧
        ((decimateM4 data t).getD b Bar.zero).low ∈ (bucketSlice data t b).map Bar.low ∧
        (∀ x ∈ (bucketSlice data t b).map Bar.low,
          ((decimateM4 data t).getD b Bar.zero).low ≤ x)) := by
  have ht0 : t ≠ 0 := by omega
  by_cases hcopy : data.length ≤ t
  · constructor
    · simp [decimateM4, if_pos hcopy]
    · intro hlt; omega
  · push_neg at hcopy
    set n := data.length with hn
    -- the bucket map function, rewritten to natural-number bounds
    have hbuckets : decimateM4 data t
        = (List.range t).map fun b =>
            if (b + 1) * n / t ≤ b * n / t then Bar.zero
            else m4Aggregate ((data.drop (b * n / t)).take ((b + 1) * n / t - b * n / t)) := by
      simp only [decimateM4, if_neg (not_le.2 hcopy)]
      apply List.map_congr_left
      intro b hb
      rw [List.mem_range] at hb
      have hmin : min ⌊((b : ℚ) + 1) * ((n : ℚ) / (t : ℚ))⌋₊ n = (b + 1) * n / t := by
        rw [floor_bucket_succ]
        exact min_eq_left (bucketBound_le n t (b + 1) ht0 (by omega))
      rw [floor_bucket, hmin]
    have hslice : ∀ b, b < t → bucketSlice data t b
        = (data.drop (b * n / t)).take ((b + 1) * n / t - b * n / t) := by
      intro b hb
      simp only [bucketSlice]
      have hmin : min ⌊((b : ℚ) + 1) * ((n : ℚ) / (t : ℚ))⌋₊ n = (b + 1) * n / t := by
        rw [floor_bucket_succ]
        exact min_eq_left (bucketBound_le n t (b + 1) ht0 (by omega))
      rw [floor_bucket, hmin]
    have hlt : ∀ b, b < t → b * n / t < (b + 1) * n / t :=
      fun b _ => bucketBound_strict n t b ht0 hcopy
    have hne : ∀ b, b < t → bucketSlice data t b ≠ [] := by
      intro b hb
      rw [hslice b hb, ← List.length_pos]
      rw [List.length_take, List.length_drop]
      have h1 := hlt b hb
      have h2 := bucketBound_le n t b ht0 (by omega)
      have h3 := bucketBound_le n t (b + 1) ht0 (by omega)
      omega
    have hget : ∀ b, b < t →
        (decimateM4 data t).getD b Bar.zero = m4Aggregate (bucketSlice data t b) := by
      intro b hb
      rw [hbuckets]
      rw [List.getD_eq_getElem _ _ (by simpa using hb)]
      simp only [List.getElem_map, List.getElem_range]
      rw [if_neg (not_le.2 (hlt b hb)), hslice b hb]
    constructor
    · -- volume conservation
      rw [hbuckets]
      unfold volumeSum
      rw [List.map_map, list_map_range_sum]
      have : ∀ b ∈ Finset.range t,
          (Bar.volume ∘ fun b =>
            if (b + 1) * n / t ≤ b * n / t then Bar.zero
            else m4Aggregate ((data.drop (b * n / t)).take ((b + 1) * n / t - b * n / t))) b
          = (((data.drop (b * n / t)).take ((b + 1) * n / t - b * n / t)).map Bar.volume).sum := by
        intro b hb
        rw [Finset.mem_range] at hb
        simp only [Function.comp]
        rw [if_neg (not_le.2 (hlt b hb))]
        have hne' := hne b hb
        rw [hslice b hb] at hne'
        obtain ⟨first, rest, hfr⟩ := List.exists_cons_of_ne_nil hne'
        rw [hfr]
        simp only [m4Aggregate]
        rw [m4fold_volume]
        simp
      rw [Finset.sum_congr rfl this]
      exact sum_slices Bar.volume data (fun b => b * n / t) t
        (bucketBound_mono n t) (by simp) (bucketBound_last n t ht0)
    · intro _
      refine ⟨by rw [hbuckets]; simp, ?_⟩
      intro b hb
      obtain ⟨first, rest, hfr⟩ := List.exists_cons_of_ne_nil (hne b hb)
      have hagg : (decimateM4 data t).getD b Bar.zero = rest.foldl m4step first := by
        rw [hget b hb, hfr]; rfl
      refine ⟨hne b hb, ?_, ?_, ?_, ?_, ?_, ?_, ?_, ?_⟩
      · rw [hagg, hfr, m4fold_time]; rfl
      · rw [hagg, hfr, m4fold_open]; rfl
      · rw [hagg, hfr, m4fold_close, List.getLastD_cons]
      · rw [hagg, hfr, m4fold_volume]; simp
      · rw [hagg, hfr, m4fold_high]
        rcases foldl_max_mem (rest.map Bar.high) first.high with h | h
        · rw [h]; simp
        · simp only [List.map_cons, List.mem_cons]
          exact Or.inr h
      · intro x hx
        rw [hagg, m4fold_high]
        rw [hfr] at hx
        simp only [List.map_cons, List.mem_cons] at hx
        rcases hx with rfl | hx
        · exact le_foldl_max_self _ _
        · exact le_foldl_max_of_mem _ _ _ hx
      · rw [hagg, hfr, m4fold_low]
        rcases foldl_min_mem (rest.map Bar.low) first.low with h | h
        · rw [h]; simp
        · simp only [List.map_cons, List.mem_cons]
          exact Or.inr h
      · intro x hx
        rw [hagg, m4fold_low]
        rw [hfr] at hx
        simp only [List.map_cons, List.mem_cons] at hx
        rcases hx with rfl | hx
        · exact foldl_min_le_self _ _
        · exact foldl_min_le_of_mem _ _ _ hx

/-- Witness for C2: spec scenario (e) — six bars with highs
`[1,3,2,5,4,6]`, lows `[1,0,2,3,1,4]` and unit volumes, decimated to two
buckets, conserve total volume. -/
theorem decimateM4_spec_witness :
    1 ≤ 2 ∧
    volumeSum (decimateM4
      [⟨0, 1, 1, 1, 1, 1⟩, ⟨1, 1, 3, 0, 1, 1⟩, ⟨2, 1, 2, 2, 2, 1⟩,
       ⟨3, 1, 5, 3, 3, 1⟩, ⟨4, 1, 4, 1, 4, 1⟩, ⟨5, 1, 6, 4, 5, 1⟩] 2)
      = volumeSum
      [⟨0, 1, 1, 1, 1, 1⟩, ⟨1, 1, 3, 0, 1, 1⟩, ⟨2, 1, 2, 2, 2, 1⟩,
       ⟨3, 1, 5, 3, 3, 1⟩, ⟨4, 1, 4, 1, 4, 1⟩, ⟨5, 1, 6, 4, 5, 1⟩] :=
  ⟨by norm_num,
   (decimateM4_spec
     [⟨0, 1, 1, 1, 1, 1⟩, ⟨1, 1, 3, 0, 1, 1⟩, ⟨2, 1, 2, 2, 2, 1⟩,
      ⟨3, 1, 5, 3, 3, 1⟩, ⟨4, 1, 4, 1, 4, 1⟩, ⟨5, 1, 6, 4, 5, 1⟩] 2
     (by norm_num)).1⟩


/-- Soundness of the `lowerBound` loop on a sorted array, by induction
on the fuel: starting from a window whose outside satisfies the search
invariants, the returned index splits the array into elements `< value`
(strictly before it) and elements `≥ value` (from it on). -/
lemma lbGo_spec (arr : List ℚ) (v : ℚ)
    (hmono : ∀ i j, i ≤ j → j < arr.length → arr.getD i 0 ≤ arr.getD j 0) :
    ∀ (fuel l r : ℕ), l ≤ r → r ≤ arr.length → r - l ≤ fuel →
      (∀ i, i < l → arr.getD i 0 < v) →
      (∀ i, r ≤ i → i < arr.length → v ≤ arr.getD i 0) →
      l ≤ lbGo arr v fuel l r ∧ lbGo arr v fuel l r ≤ r ∧
      (∀ i, i < lbGo arr v fuel l r → arr.getD i 0 < v) ∧
      (∀ i, lbGo arr v fuel l r ≤ i → i < arr.length → v ≤ arr.getD i 0) := by
  intro fuel
  induction fuel with
  | zero =>
    intro l r hlr hr hfuel hl hrr
    have : l = r := by omega
    subst this
    exact ⟨le_rfl, le_rfl, hl, hrr⟩
  | succ fuel ih =>
    intro l r hlr hr hfuel hl hrr
    by_cases hlt : l < r
    · rw [lbGo, if_pos hlt]
      set mid := (l + r) / 2 with hmid
      have hmidlt : mid < r := by omega
      have hmidge : l ≤ mid := by omega
      by_cases harr : arr.getD mid 0 < v
      · rw [if_pos harr]
        have hl' : ∀ i, i < mid + 1 → arr.getD i 0 < v := by
          intro i hi
          calc arr.getD i 0 ≤ arr.getD mid 0 := hmono i mid (by omega) (by omega)
            _ < v := harr
        have h := ih (mid + 1) r (by omega) hr (by omega) hl' hrr
        exact ⟨by omega, h.2.1, h.2.2.1, h.2.2.2⟩
      · rw [if_neg harr]
        push_neg at harr
        have hrr' : ∀ i, mid ≤ i → i < arr.length → v ≤ arr.getD i 0 := by
          intro i hi hilen
          calc v ≤ arr.getD mid 0 := harr
            _ ≤ arr.getD i 0 := hmono mid i hi hilen
        have h := ih l mid (by omega) (by omega) (by omega) hl hrr'
        exact ⟨h.1, by omega, h.2.2.1, h.2.2.2⟩
    · rw [lbGo, if_neg hlt]
      have : l = r := by omega
      subst this
      exact ⟨le_rfl, le_rfl, hl, hrr⟩

/-- Soundness of the `upperBound` loop: the returned index splits a
sorted array into elements `≤ value` and elements `> value`. -/
lemma ubGo_spec (arr : List ℚ) (v : ℚ)
    (hmono : ∀ i j, i ≤ j → j < arr.length → arr.getD i 0 ≤ arr.getD j 0) :
    ∀ (fuel l r : ℕ), l ≤ r → r ≤ arr.length → r - l ≤ fuel →
      (∀ i, i < l → arr.getD i 0 ≤ v) →
      (∀ i, r ≤ i → i < arr.length → v < arr.getD i 0) →
      l ≤ ubGo arr v fuel l r ∧ ubGo arr v fuel l r ≤ r ∧
      (∀ i, i < ubGo arr v fuel l r → arr.getD i 0 ≤ v) ∧
      (∀ i, ubGo arr v fuel l r ≤ i → i < arr.length → v < arr.getD i 0) := by
  intro fuel
  induction fuel with
  | zero =>
    intro l r hlr hr hfuel hl hrr
    have : l = r := by omega
    subst this
    exact ⟨le_rfl, le_rfl, hl, hrr⟩
  | succ fuel ih =>
    intro l r hlr hr hfuel hl hrr
    by_cases hlt : l < r
    · rw [ubGo, if_pos hlt]
      set mid := (l + r) / 2 with hmid
      have hmidlt : mid < r := by omega
      have hmidge : l ≤ mid := by omega
      by_cases harr : arr.getD mid 0 ≤ v
      · rw [if_pos harr]
        have hl' : ∀ i, i < mid + 1 → arr.getD i 0 ≤ v := by
          intro i hi
          calc arr.getD i 0 ≤ arr.getD mid 0 := hmono i mid (by omega) (by omega)
            _ ≤ v := harr
        have h := ih (mid + 1) r (by omega) hr (by omega) hl' hrr
        exact ⟨by omega, h.2.1, h.2.2.1, h.2.2.2⟩
      · rw [if_neg harr]
        push_neg at harr
        have hrr' : ∀ i, mid ≤ i → i < arr.length → v < arr.getD i 0 := by
          intro i hi hilen
          calc v < arr.getD mid 0 := harr
            _ ≤ arr.getD i 0 := hmono mid i hi hilen
        have h := ih l mid (by omega) (by omega) (by omega) hl hrr'
        exact ⟨h.1, by omega, h.2.2.1, h.2.2.2⟩
    · rw [ubGo, if_neg hlt]
      have : l = r := by omega
      subst this
      exact ⟨le_rfl, le_rfl, hl, hrr⟩

/-- Reading the extracted time array equals reading the bar's time. -/
lemma times_getD (data : List Bar) (i : ℕ) (hi : i < data.length) :
    (data.map Bar.time).getD i 0 = (data.getD i Bar.zero).time := by
  rw [List.getD_eq_getElem _ _ (by simpa using hi),
      List.getD_eq_getElem _ _ hi, List.getElem_map]

/-- Claim C8 (corrected): the culler's `padding` is an **index** count,
not a time offset.  For a time-sorted bar array, when neither the
`minCount` top-up nor the `maxCount` trim engages, the result range is
the binary-search window `[lb, ub)` widened by at most `padding` indices
per side, and every bar of the result except those boundary bars —
i.e. every `i` with `start + padding ≤ i` and `i + padding < end` — has
its time inside `[range.from, range.to]`.  The boundary bars' times can
lie arbitrarily far outside the padded time range (see the
counterexample). -/
theorem cull_padded_window (opts : CullingOptions) (data : List Bar) (range : TimeRange)
    (hmono : ∀ i j, i ≤ j → j < data.length →
      (data.getD i Bar.zero).time ≤ (data.getD j Bar.zero).time)
    (hne : data ≠ [])
    (hmin : (opts.minCount : ℤ) ≤
      ((min data.length (upperBound (data.map Bar.time) range.to_ + opts.padding) : ℕ) : ℤ)
        - ((lowerBound (data.map Bar.time) range.from_ - opts.padding : ℕ) : ℤ))
    (hmax : ((min data.length (upperBound (data.map Bar.time) range.to_ + opts.padding) : ℕ) : ℤ)
        - ((lowerBound (data.map Bar.time) range.from_ - opts.padding : ℕ) : ℤ)
        ≤ (opts.maxCount : ℤ)) :
    FrustumCuller.cull opts data range
      = (lowerBound (data.map Bar.time) range.from_ - opts.padding,
         min data.length (upperBound (data.map Bar.time) range.to_ + opts.padding)) ∧
    ∀ i, (FrustumCuller.cull opts data range).1 + opts.padding ≤ i →
         i + opts.padding < (FrustumCuller.cull opts data range).2 →
         range.from_ ≤ (data.getD i Bar.zero).time ∧
         (data.getD i Bar.zero).time ≤ range.to_ := by
  have hlen0 : data.length ≠ 0 := by
    simpa [List.length_eq_zero] using hne
  set times := data.map Bar.time with htimes
  have hlent : times.length = data.length := by
    rw [htimes, List.length_map]
  have hmono' : ∀ i j, i ≤ j → j < times.length →
      times.getD i 0 ≤ times.getD j 0 := by
    intro i j hij hj
    rw [hlent] at hj
    rw [htimes, times_getD data i (by omega), times_getD data j hj]
    exact hmono i j hij hj
  have hlb : lowerBound times range.from_ ≤ times.length ∧
      (∀ i, i < lowerBound times range.from_ → times.getD i 0 < range.from_) ∧
      (∀ i, lowerBound times range.from_ ≤ i → i < times.length →
        range.from_ ≤ times.getD i 0) := by
    have h := lbGo_spec times range.from_ hmono' times.length 0 times.length
      (by omega) le_rfl (by omega) (by intro i h1; omega) (by intro i h1 h2; omega)
    exact ⟨h.2.1, h.2.2.1, h.2.2.2⟩
  have hub : upperBound times range.to_ ≤ times.length ∧
      (∀ i, i < upperBound times range.to_ → times.getD i 0 ≤ range.to_) ∧
      (∀ i, upperBound times range.to_ ≤ i → i < times.length →
        range.to_ < times.getD i 0) := by
    have h := ubGo_spec times range.to_ hmono' times.length 0 times.length
      (by omega) le_rfl (by omega) (by intro i h1; omega) (by intro i h1 h2; omega)
    exact ⟨h.2.1, h.2.2.1, h.2.2.2⟩
  have hculleq : FrustumCuller.cull opts data range
      = (lowerBound times range.from_ - opts.padding,
         min data.length (upperBound times range.to_ + opts.padding)) := by
    simp only [FrustumCuller.cull, if_neg hlen0, ← htimes]
    rw [if_neg (not_lt.2 hmin)]
    simp only
    rw [if_neg (not_lt.2 hmax)]
  refine ⟨hculleq, ?_⟩
  intro i hi1 hi2
  rw [hculleq] at hi1 hi2
  simp only at hi1 hi2
  have hilen : i < data.length := by omega
  have his0 : lowerBound times range.from_ ≤ i := by omega
  have hie0 : i < upperBound times range.to_ := by omega
  constructor
  · have := hlb.2.2 i his0 (by omega)
    rwa [htimes, times_getD data i hilen] at this
  · have := hub.2.1 i hie0
    rwa [htimes, times_getD data i hilen] at this

/-- Claim C8, counterexample to `time[i] ∈ [from - pad, to + pad]`:
twelve sorted bars, five of them (times 0..4) far below the range
`[1000000, 1000001]`.  The index padding widens the window to all twelve
bars, so index 0 with time 0 is included although
`0 < range.from - padding = 999995`. -/
theorem cull_cex :
    FrustumCuller.cull defaultCullingOptions
      [⟨0, 0, 0, 0, 0, 0⟩, ⟨1, 0, 0, 0, 0, 0⟩, ⟨2, 0, 0, 0, 0, 0⟩, ⟨3, 0, 0, 0, 0, 0⟩,
       ⟨4, 0, 0, 0, 0, 0⟩, ⟨1000000, 0, 0, 0, 0, 0⟩, ⟨1000001, 0, 0, 0, 0, 0⟩,
       ⟨1000002, 0, 0, 0, 0, 0⟩, ⟨1000003, 0, 0, 0, 0, 0⟩, ⟨1000004, 0, 0, 0, 0, 0⟩,
       ⟨1000005, 0, 0, 0, 0, 0⟩, ⟨1000006, 0, 0, 0, 0, 0⟩]
      ⟨1000000, 1000001⟩ = (0, 12) ∧
    (([⟨0, 0, 0, 0, 0, 0⟩, ⟨1, 0, 0, 0, 0, 0⟩, ⟨2, 0, 0, 0, 0, 0⟩, ⟨3, 0, 0, 0, 0, 0⟩,
       ⟨4, 0, 0, 0, 0, 0⟩, ⟨1000000, 0, 0, 0, 0, 0⟩, ⟨1000001, 0, 0, 0, 0, 0⟩,
       ⟨1000002, 0, 0, 0, 0, 0⟩, ⟨1000003, 0, 0, 0, 0, 0⟩, ⟨1000004, 0, 0, 0, 0, 0⟩,
       ⟨1000005, 0, 0, 0, 0, 0⟩, ⟨1000006, 0, 0, 0, 0, 0⟩] : List Bar).getD 0 Bar.zero).time
      = 0 ∧
    ¬((1000000 : ℚ) - 5 ≤ 0) := by
  refine ⟨by decide, by decide, by norm_num⟩

/-- Witness for C8: two bars with times `[0, 1]`, range `[0, 1]`, no
padding, `minCount = 0`, `maxCount = 2` — the inner bar at index 0 has
its time inside the range. -/
theorem cull_padded_window_witness :
    (0 : ℚ) ≤ ((([⟨0, 0, 0, 0, 0, 0⟩, ⟨1, 0, 0, 0, 0, 0⟩] : List Bar).getD 0 Bar.zero).time) ∧
    ((([⟨0, 0, 0, 0, 0, 0⟩, ⟨1, 0, 0, 0, 0, 0⟩] : List Bar).getD 0 Bar.zero).time) ≤ 1 :=
  (cull_padded_window ⟨0, 0, 2⟩ [⟨0, 0, 0, 0, 0, 0⟩, ⟨1, 0, 0, 0, 0, 0⟩] ⟨0, 1⟩
    (by
      intro i j hij hj
      have hj2 : j < 2 := by simpa using hj
      interval_cases j
      · interval_cases i
        exact le_refl _
      · interval_cases i <;> norm_num [List.getD])
    (by decide) (by decide) (by decide)).2 0 (by decide) (by decide)

/-- Regression check for the signed `visibleCount`: on a reversed range
(`from > to`) the raw binary-search window is empty with
`endIndex < startIndex`, the signed count is negative, and the
`minCount` top-up engages even with `minCount = 0` — the culler returns
the empty range `[1, 1)`, exactly as the source program does. -/
lemma cull_reversed_range_topup :
    FrustumCuller.cull ⟨0, 0, 1⟩ [⟨5, 0, 0, 0, 0, 0⟩] ⟨10, 0⟩ = (1, 1) := by
  decide


namespace RealtimeDataHandler

/-- One `updateCandle` step preserves the bar invariant: if the current
partial candle satisfies it and the tick's volume (when present) is
non-negative, then both the new partial candle and the emitted completed
candle (if any) satisfy it. -/
theorem updateCandle_invariant (tf : ℚ) (st : HandlerState) (t : Tick)
    (hst : ∀ c, st.currentCandle = some c → barInvariant c)
    (hv : ∀ v, t.volume = some v → 0 ≤ v) :
    (∀ c, (updateCandle tf st t).1.currentCandle = some c → barInvariant c) ∧
    (∀ c, (updateCandle tf st t).2 = some c → barInvariant c) := by
  have hvol : 0 ≤ t.volume.getD 0 := by
    cases hvol : t.volume with
    | none => simp
    | some v => simpa using hv v hvol
  have hfresh : barInvariant
      { time := ((⌊t.time / tf⌋ : ℤ) : ℚ) * tf, open_ := t.price, high := t.price,
        low := t.price, close := t.price, volume := t.volume.getD 0 } :=
    ⟨le_min le_rfl le_rfl, max_le le_rfl le_rfl, hvol⟩
  cases hcur : st.currentCandle with
  | none =>
    simp only [updateCandle, hcur, Option.isNone_none, true_or, if_pos]
    exact ⟨fun c hc => by
        simp only [Option.some.injEq] at hc
        subst hc; exact hfresh,
      fun c hc => by simp at hc⟩
  | some c0 =>
    obtain ⟨hlo, hhi, hvol0⟩ := hst c0 hcur
    by_cases hne : ((⌊t.time / tf⌋ : ℤ) : ℚ) * tf ≠ st.candleStartTime
    · simp only [updateCandle, hcur, Option.isNone_some, Bool.false_eq_true, false_or,
        if_pos hne]
      exact ⟨fun c hc => by
          simp only [Option.some.injEq] at hc
          subst hc; exact hfresh,
        fun c hc => by
          simp only [Option.some.injEq] at hc
          subst hc; exact ⟨hlo, hhi, hvol0⟩⟩
    · simp only [updateCandle, hcur, Option.isNone_some, Bool.false_eq_true, false_or,
        if_neg hne]
      refine ⟨fun c hc => ?_, fun c hc => by simp at hc⟩
      simp only [Option.some.injEq] at hc
      subst hc
      refine ⟨?_, ?_, by positivity⟩
      · refine le_min ?_ (min_le_right _ _)
        calc min c0.low t.price ≤ c0.low := min_le_left _ _
          _ ≤ min c0.open_ c0.close := hlo
          _ ≤ c0.open_ := min_le_left _ _
      · refine max_le ?_ (le_max_right _ _)
        calc c0.open_ ≤ max c0.open_ c0.close := le_max_left _ _
          _ ≤ c0.high := hhi
          _ ≤ max c0.high t.price := le_max_left _ _

/-- Running a tick list through the aggregator preserves the invariant
on the partial candle and emits only invariant-satisfying candles. -/
theorem processTicks_invariant (tf : ℚ) (ticks : List Tick) :
    ∀ st : HandlerState,
      (∀ c, st.currentCandle = some c → barInvariant c) →
      (∀ t ∈ ticks, ∀ v, t.volume = some v → 0 ≤ v) →
      (∀ c ∈ (processTicks tf st ticks).2, barInvariant c) ∧
      (∀ c, (processTicks tf st ticks).1.currentCandle = some c → barInvariant c) := by
  induction ticks with
  | nil => intro st hst _; exact ⟨by simp [processTicks], fun c hc => hst c (by simpa [processTicks] using hc)⟩
  | cons t rest ih =>
    intro st hst hvols
    have hv : ∀ v, t.volume = some v → 0 ≤ v := hvols t (List.mem_cons_self t rest)
    have hstep := updateCandle_invariant tf st t hst hv
    have hrest := ih (updateCandle tf st t).1 hstep.1
      (fun u hu => hvols u (List.mem_cons_of_mem t hu))
    constructor
    · intro c hc
      simp only [processTicks, List.mem_append] at hc
      rcases hc with hc | hc
      · refine hstep.2 c ?_
        cases h2 : (updateCandle tf st t).2 with
        | none => simp [h2] at hc
        | some b => simp [h2] at hc; simp [hc, h2]
      · exact hrest.1 c hc
    · intro c hc
      exact hrest.2 c (by simpa [processTicks] using hc)

/-- Claim C10 (confirmed): starting from the initial handler state,
every candle produced by tick→bar aggregation — each completed candle
emitted along the way and the final partial candle — satisfies the bar
invariant `low ≤ min(open, close) ≤ max(open, close) ≤ high` and
`volume ≥ 0`, whenever every tick volume present is non-negative. -/
theorem aggregation_bar_invariant (tf : ℚ) (ticks : List Tick)
    (hvols : ∀ t ∈ ticks, ∀ v, t.volume = some v → 0 ≤ v) :
    (∀ c ∈ (processTicks tf initialState ticks).2, barInvariant c) ∧
    (∀ c, (processTicks tf initialState ticks).1.currentCandle = some c →
      barInvariant c) :=
  processTicks_invariant tf ticks initialState (by simp [initialState]) hvols

/-- Witness for C10: three concrete ticks (one crossing a minute
boundary, one with no volume field) produce only invariant-satisfying
candles. -/
theorem aggregation_bar_invariant_witness :
    (∀ t ∈ [(⟨0, 10, some 1⟩ : Tick), ⟨1, 12, none⟩, ⟨60000, 11, some 2⟩],
      ∀ v, t.volume = some v → 0 ≤ v) ∧
    ((∀ c ∈ (RealtimeDataHandler.processTicks 60000 RealtimeDataHandler.initialState
        [⟨0, 10, some 1⟩, ⟨1, 12, none⟩, ⟨60000, 11, some 2⟩]).2, barInvariant c) ∧
     (∀ c, (RealtimeDataHandler.processTicks 60000 RealtimeDataHandler.initialState
        [⟨0, 10, some 1⟩, ⟨1, 12, none⟩, ⟨60000, 11, some 2⟩]).1.currentCandle = some c →
        barInvariant c)) := by
  have hvols : ∀ t ∈ [(⟨0, 10, some 1⟩ : Tick), ⟨1, 12, none⟩, ⟨60000, 11, some 2⟩],
      ∀ v, t.volume = some v → 0 ≤ v := by
    intro t ht v hv
    fin_cases ht
    · injection hv with h; subst h; norm_num
    · exact Option.noConfusion hv
    · injection hv with h; subst h; norm_num
  exact ⟨hvols, aggregation_bar_invariant 60000 _ hvols⟩

end RealtimeDataHandler

end BitChart
